import Mathlib

/-!
Verification of the core of the rto-toolkit script
InitialAccess/parse_curl_domains.py against its specification.

The Python source is shallowly embedded below.  Python sets of strings
become Finset String; Python lists become Lean lists; str becomes String
and is manipulated through its underlying List Char.  The stdlib IDNA
codec used by the TLD filter and the shlex tokenizer used by main are
external collaborators of the core and are modelled as explicit
function parameters.  Fuelled recursions are supplied fuel that always
suffices (one unit per character of input).
-/

/-- ASCII lowercasing of one character: [A-Z] maps to [a-z], everything
else is left unchanged (the ASCII fragment of Python str.lower). -/
def pyToLower (c : Char) : Char :=
  if 65 ≤ c.toNat ∧ c.toNat ≤ 90 then Char.ofNat (c.toNat + 32) else c

/-- An ASCII uppercase character [A-Z]. -/
def pyIsUpper (c : Char) : Bool := decide (65 ≤ c.toNat ∧ c.toNat ≤ 90)

/-- str.lower on a whole string. -/
def pyLowerStr (s : String) : String := ⟨s.data.map pyToLower⟩

/-- Whitespace as matched by the regex whitespace class and stripped by
str.strip with no arguments: ASCII whitespace plus the Latin-1 and
Unicode whitespace code points. -/
def isPySpace (c : Char) : Bool :=
  decide (c.toNat = 32 ∨ c.toNat = 9 ∨ c.toNat = 10 ∨ c.toNat = 13 ∨ c.toNat = 11 ∨
    c.toNat = 12 ∨ (28 ≤ c.toNat ∧ c.toNat ≤ 31) ∨ c.toNat = 133 ∨ c.toNat = 160 ∨
    c.toNat = 5760 ∨ (8192 ≤ c.toNat ∧ c.toNat ≤ 8202) ∨ c.toNat = 8232 ∨
    c.toNat = 8233 ∨ c.toNat = 8239 ∨ c.toNat = 8287 ∨ c.toNat = 12288)

/-- One of the two square bracket characters. -/
def isBracketChar (c : Char) : Bool := c == '[' || c == ']'

/-- Removes the maximal trailing run of characters satisfying p (the
right half of Python str.strip). -/
def dropTrailing (p : Char → Bool) : List Char → List Char
  | [] => []
  | c :: cs =>
    match dropTrailing p cs with
    | [] => if p c then [] else [c]
    | r => c :: r

/-- str.startswith for whole strings. -/
def strStarts (pre s : String) : Bool := pre.data.isPrefixOf s.data

/-- normalize_host from the source (lines 64-72): drop everything up to
and including the first at-sign when one occurs, apply str.strip with
the two bracket characters (which removes EVERY leading and trailing
bracket character), keep what is left of the first colon, lowercase. -/
def normalize_host (netloc : String) : String :=
  let l := netloc.data
  let l1 := if l.contains '@' then (l.dropWhile (· != '@')).tail else l
  let l2 := dropTrailing isBracketChar (l1.dropWhile isBracketChar)
  let l3 := l2.takeWhile (· != ':')
  ⟨l3.map pyToLower⟩

/-- A character of the regex class with A-Z, a-z, 0-9 and hyphen. -/
def isAlnumHyphen (c : Char) : Bool := c.isAlpha || c.isDigit || c == '-'

/-- One or more groups of a dot followed by a nonempty alnum-hyphen run,
greedy; returns the consumed characters and the remainder. -/
def extGo : Nat → List Char → Option (List Char × List Char)
  | 0, _ => none
  | fuel + 1, l =>
    match l with
    | '.' :: c :: rest =>
      if isAlnumHyphen c then
        let r := rest.takeWhile isAlnumHyphen
        let rest2 := rest.dropWhile isAlnumHyphen
        match extGo fuel rest2 with
        | some (ext, rest3) => some ('.' :: c :: (r ++ ext), rest3)
        | none => some ('.' :: c :: r, rest2)
      else none
    | _ => none

/-- The findall loop of DOMAIN_RE (line 37): all non-overlapping,
leftmost, greedy matches of one or more alnum-hyphen labels separated
by dots, with at least two labels. -/
def scanGo : Nat → List Char → List (List Char)
  | 0, _ => []
  | fuel + 1, l =>
    match l with
    | [] => []
    | c :: cs =>
      if isAlnumHyphen c then
        let r1 := cs.takeWhile isAlnumHyphen
        let rest := cs.dropWhile isAlnumHyphen
        match extGo (rest.length + 1) rest with
        | some (ext, rest2) => (c :: (r1 ++ ext)) :: scanGo fuel rest2
        | none => scanGo fuel rest
      else scanGo fuel cs

/-- DOMAIN_RE.findall on a character list. -/
def scanDomains (l : List Char) : List (List Char) := scanGo (l.length + 1) l

/-- A character allowed inside the captured Host header value: anything
except semicolon, comma, whitespace and the two quote characters. -/
def isHostValChar (c : Char) : Bool :=
  !(c == ';' || c == ',' || isPySpace c || c == '"' || c.toNat == 39)

/-- Attempts to match the Host header regex of line 102 (the word host
case-insensitively, optional whitespace, a colon, optional whitespace,
then a nonempty greedy capture of value characters) at the head of l,
returning the capture. -/
def matchHostAt : List Char → Option (List Char)
  | c1 :: c2 :: c3 :: c4 :: rest =>
    if pyToLower c1 == 'h' && pyToLower c2 == 'o' && pyToLower c3 == 's' &&
        pyToLower c4 == 't' then
      match rest.dropWhile isPySpace with
      | ':' :: r2 =>
        let cap := (r2.dropWhile isPySpace).takeWhile isHostValChar
        if cap.isEmpty then none else some cap
      | _ => none
    else none
  | _ => none

/-- re.search of the Host header regex: the leftmost position where the
pattern matches, scanning left to right. -/
def hostSearch : List Char → Option (List Char)
  | [] => none
  | c :: cs =>
    match matchHostAt (c :: cs) with
    | some cap => some cap
    | none => hostSearch cs

/-- re.split on a comma with optional surrounding whitespace (lines 113
and 122): whitespace adjacent to a comma is consumed by the separator,
whitespace not adjacent to any comma is kept. -/
def commaGo : Nat → List Char → List (List Char)
  | 0, l => [l]
  | fuel + 1, l =>
    if l.contains ',' then
      let pre := l.takeWhile (· != ',')
      let post := (l.dropWhile (· != ',')).tail
      dropTrailing isPySpace pre :: commaGo fuel (post.dropWhile isPySpace)
    else [l]

/-- The comma split applied to a whole value. -/
def commaSplit (l : List Char) : List (List Char) := commaGo (l.length + 1) l

/-- Tab, carriage return and line feed, removed from a url by urlsplit
before parsing. -/
def isUrlUnsafe (c : Char) : Bool := c == '\t' || c == '\r' || c == '\n'

/-- A character ending the netloc of a url. -/
def isNetlocEnd (c : Char) : Bool := c == '/' || c == '?' || c == '#'

/-- urlparse(u).netloc for u starting with http:// or https://: urlsplit
removes tab, CR and LF anywhere in the url, takes the characters between
the double slash and the first slash, question mark or hash, and raises
ValueError (here none) when the brackets of the netloc are unbalanced. -/
def netlocOf (u : String) : Option String :=
  let cleaned : List Char := u.data.filter (fun c => !isUrlUnsafe c)
  let body : Option (List Char) :=
    if strStarts "http://" ⟨cleaned⟩ then some (cleaned.drop 7)
    else if strStarts "https://" ⟨cleaned⟩ then some (cleaned.drop 8)
    else none
  match body with
  | none => none
  | some r =>
    let nl := r.takeWhile (fun c => !isNetlocEnd c)
    if (nl.contains '[' && !nl.contains ']') || (nl.contains ']' && !nl.contains '[') then
      none
    else some ⟨nl⟩

/-- Rule 1 of the extractor scan (lines 81-87): a token that starts with
http:// or https:// contributes its normalized netloc when urlparse
succeeds and the netloc is nonempty. -/
def directUrlSet (t : String) : Finset String :=
  if strStarts "http://" t || strStarts "https://" t then
    match netlocOf t with
    | some nl => if nl = "" then ∅ else {normalize_host nl}
    | none => ∅
  else ∅

/-- Rule 2 value handling (lines 90-97): the token following a url flag
contributes its normalized netloc when it starts with http:// or
https:// (with no nonemptiness check, unlike rule 1). -/
def urlFlagValueSet (v : String) : Finset String :=
  if strStarts "http://" v || strStarts "https://" v then
    match netlocOf v with
    | some nl => {normalize_host nl}
    | none => ∅
  else ∅

/-- Rule 5 (lines 128-130): every DOMAIN_RE match found in the token,
normalized. -/
def genericScanSet (t : String) : Finset String :=
  ((scanDomains t.data).map (fun l => normalize_host ⟨l⟩)).toFinset

/-- Rule 3 value handling (lines 100-108): the captured Host header
value when the header regex matches, otherwise every DOMAIN_RE match of
the whole header string, normalized. -/
def headerValueSet (v : String) : Finset String :=
  match hostSearch v.data with
  | some cap => {normalize_host ⟨cap⟩}
  | none => genericScanSet v

/-- Rule 4 value handling (lines 111-126, identical for the two flags):
the value is comma separated; the first colon field of each comma
segment is added when nonempty, normalized. -/
def resolveConnectSet (v : String) : Finset String :=
  ((commaSplit v.data).filterMap (fun part =>
    let host := part.takeWhile (· != ':')
    if host.isEmpty then none else some (normalize_host ⟨host⟩))).toFinset

/-- The three kinds of value-consuming flags. -/
inductive FlagKind
  | url
  | header
  | hostpairs

/-- Which value-consuming flag, if any, a token is (the three flag sets
are pairwise disjoint, so at most one of the flag branches of the
source loop fires per token). -/
def flagKind (t : String) : Option FlagKind :=
  if t = "--url" ∨ t = "--url*" ∨ t = "-I" ∨ t = "--head" then some FlagKind.url
  else if t = "-H" ∨ t = "--header" then some FlagKind.header
  else if t = "--resolve" ∨ t = "--connect-to" then some FlagKind.hostpairs
  else none

/-- Dispatch of the flag value contribution. -/
def flagValueSet : FlagKind → String → Finset String
  | FlagKind.url, v => urlFlagValueSet v
  | FlagKind.header, v => headerValueSet v
  | FlagKind.hostpairs, v => resolveConnectSet v

/-- The while-loop of token_extract_domains (lines 74-134).  Every
iteration adds the rule 1 and rule 5 contributions of the current token;
when the token is a value-consuming flag and a next token exists, the
flag rule adds its value contribution and the loop index advances past
the value token (the source increments i inside the flag branch and
once more at the end of the iteration). -/
def extractGo : List String → Finset String
  | [] => ∅
  | [t] => directUrlSet t ∪ genericScanSet t
  | t :: v :: rest =>
    match flagKind t with
    | some k => directUrlSet t ∪ flagValueSet k v ∪ genericScanSet t ∪ extractGo rest
    | none => directUrlSet t ∪ genericScanSet t ∪ extractGo (v :: rest)

/-- token_extract_domains from the source. -/
def token_extract_domains (tokens : List String) : Finset String := extractGo tokens

/-- The last dot-separated label: rsplit with separator dot takes the
suffix after the final dot as its last element (the whole string when no
dot occurs), independent of the maxsplit bound used in the source. -/
def lastLabel (d : String) : String := ⟨(d.data.reverse.takeWhile (· != '.')).reverse⟩

/-- The keep-test of filter_by_tlds for one domain (lines 141-159):
empty strings are skipped; a domain is kept when its lowercased last
label is in tlds, or else when that label starts with xn--, the IDNA
decode of the whole domain succeeds and the lowercased last label of the
decoded form is in tlds.  decodeIdna stands for the stdlib IDNA codec,
an external collaborator, passed in as an Option-returning function. -/
def keepDomain (decodeIdna : String → Option String) (tlds : Finset String) (d : String) :
    Bool :=
  if d = "" then false
  else if pyLowerStr (lastLabel d) ∈ tlds then true
  else if strStarts "xn--" (pyLowerStr (lastLabel d)) then
    match decodeIdna d with
    | some decoded => decide (pyLowerStr (lastLabel decoded) ∈ tlds)
    | none => false
  else false

/-- filter_by_tlds from the source (lines 136-160). -/
def filter_by_tlds (decodeIdna : String → Option String) (domains tlds : Finset String) :
    Finset String :=
  domains.filter (fun d => keepDomain decodeIdna tlds d = true)

/-- Python str.split with a single-character separator: the empty string
yields one empty field; n separators yield n+1 fields. -/
def splitOnChar (sep : Char) : List Char → List (List Char)
  | [] => [[]]
  | c :: cs =>
    if c = sep then [] :: splitOnChar sep cs
    else
      match splitOnChar sep cs with
      | p :: ps => (c :: p) :: ps
      | [] => [[c]]

/-- The label choice of suggest_wildcards (lines 168-173): the
second-to-last dot label when there are at least two labels, else the
single label. -/
def wildLabel (d : String) : String :=
  let parts := splitOnChar '.' d.data
  if 2 ≤ parts.length then ⟨parts.getD (parts.length - 2) []⟩ else ⟨parts.getD 0 []⟩

/-- The spec-side wording of the wildcard label (spec section 4.5), for
comparison with wildLabel: the second-to-last dot label for two or more
labels, the whole domain string for a single-label domain. -/
def specLabel (d : String) : String :=
  let parts := splitOnChar '.' d.data
  if 2 ≤ parts.length then ⟨parts.getD (parts.length - 2) []⟩ else d

/-- Lexicographic comparison of character lists by code point, the
ordering Python uses to compare strings. -/
def lexLe : List Char → List Char → Bool
  | [], _ => true
  | _ :: _, [] => false
  | a :: as, b :: bs =>
    if a.toNat < b.toNat then true
    else if b.toNat < a.toNat then false
    else lexLe as bs

/-- Python string comparison. -/
def strLe (s t : String) : Bool := lexLe s.data t.data

/-- The comparison as a relation, for sorting. -/
def strLeP (s t : String) : Prop := strLe s t = true

instance : DecidableRel strLeP := fun s t => by unfold strLeP; infer_instance

instance : IsTotal String strLeP := by
  constructor
  intro a b
  show lexLe a.data b.data = true ∨ lexLe b.data a.data = true
  induction a.data generalizing b with
  | nil => left; rfl
  | cons x xs ih =>
    cases hb : b.data with
    | nil => right; rfl
    | cons y ys =>
      by_cases h1 : x.toNat < y.toNat
      · left; simp [lexLe, h1]
      · by_cases h2 : y.toNat < x.toNat
        · right; simp [lexLe, h1, h2]
        · rcases ih ⟨ys⟩ with h | h
          · left; simp [lexLe, h1, h2, h]
          · right; simp [lexLe, h1, h2, h]

instance : IsTrans String strLeP := by
  constructor
  intro a b c
  show lexLe a.data b.data = true → lexLe b.data c.data = true → lexLe a.data c.data = true
  induction a.data generalizing b c with
  | nil => intro _ _; rfl
  | cons x xs ih =>
    intro hab hbc
    cases hb : b.data with
    | nil => rw [hb] at hab; simp [lexLe] at hab
    | cons y ys =>
      rw [hb] at hab hbc
      cases hc : c.data with
      | nil => rw [hc] at hbc; simp [lexLe] at hbc
      | cons z zs =>
        rw [hc] at hbc
        simp only [lexLe] at hab hbc ⊢
        split at hab
        · rename_i h1
          split at hbc
          · rename_i h2; simp [show x.toNat < z.toNat by omega]
          · split at hbc
            · exact absurd hbc (by simp)
            · rename_i h2 h3
              simp [show x.toNat < z.toNat by omega]
        · split at hab
          · exact absurd hab (by simp)
          · rename_i h1 h2
            split at hbc
            · rename_i h3; simp [show x.toNat < z.toNat by omega]
            · split at hbc
              · exact absurd hbc (by simp)
              · rename_i h3 h4
                simp only [show ¬ x.toNat < z.toNat by omega,
                  show ¬ z.toNat < x.toNat by omega, if_false]
                exact ih ⟨ys⟩ ⟨zs⟩ hab hbc

instance : IsAntisymm String strLeP := by
  constructor
  have key : ∀ a b : List Char, lexLe a b = true → lexLe b a = true → a = b := by
    intro a
    induction a with
    | nil =>
      intro b _ hba
      cases b with
      | nil => rfl
      | cons y ys => simp [lexLe] at hba
    | cons x xs ih =>
      intro b hab hba
      cases b with
      | nil => simp [lexLe] at hab
      | cons y ys =>
        simp only [lexLe] at hab hba
        by_cases h1 : x.toNat < y.toNat
        · simp [h1, show ¬ y.toNat < x.toNat by omega] at hba
        · by_cases h2 : y.toNat < x.toNat
          · simp [h1, h2] at hab
          · simp only [h1, h2, if_false] at hab hba
            have hxy : x = y := by
              apply Char.eq_of_val_eq
              apply UInt32.eq_of_toBitVec_eq
              apply BitVec.eq_of_toNat_eq
              show x.toNat = y.toNat
              omega
            rw [hxy, ih ys hab hba]
  intro a b hab hba
  cases a; cases b
  exact congrArg String.mk (key _ _ hab hba)

/-- The ascending list of the elements of a finite set of strings, the
model of Python sorted applied to a set. -/
def sortFinset (F : Finset String) : List String :=
  Quot.liftOn F.val (fun l => l.insertionSort strLeP) (fun l l' h =>
    List.eq_of_perm_of_sorted
      ((l.perm_insertionSort strLeP).trans ((h : l.Perm l').trans
        (l'.perm_insertionSort strLeP).symm))
      (List.sorted_insertionSort strLeP l)
      (List.sorted_insertionSort strLeP l'))

/-- suggest_wildcards from the source (lines 162-174): dedupe the chosen
labels into a set and return the label.* strings sorted ascending. -/
def suggest_wildcards (domains : Finset String) : List String :=
  sortFinset ((domains.image wildLabel).image (fun lbl => lbl ++ ".*"))

/-- Python str.strip with no arguments. -/
def pyStripS (s : String) : String := ⟨dropTrailing isPySpace (s.data.dropWhile isPySpace)⟩

/-- Lines 196-199 of main: an explicit cmd argument is used verbatim
when Python-truthy (nonempty); otherwise the command is read from stdin
and stripped. -/
def readCommand (cmdArg : Option String) (stdin : String) : String :=
  match cmdArg with
  | some c => if c = "" then pyStripS stdin else c
  | none => pyStripS stdin

/-- The run of main (lines 195-248) with the TLD acquisition, the shlex
tokenizer and the IDNA codec supplied externally: error 1 models
sys.exit(1) on an empty command string; the ok result carries the
sorted filtered domain list that the default output prints. -/
def runCore (tokenize : String → List String) (decodeIdna : String → Option String)
    (cmdArg : Option String) (stdin : String) (tlds : Finset String) :
    Except Nat (List String) :=
  let cmd := readCommand cmdArg stdin
  if cmd = "" then Except.error 1
  else
    Except.ok (sortFinset (filter_by_tlds decodeIdna
      (token_extract_domains (tokenize cmd)) tlds))

/-- The normalizer exactly as claim C7 words it: strip ONE leading open
bracket and ONE trailing close bracket, instead of the str.strip
behaviour of removing every leading and trailing bracket character. -/
def claimNormalizeOnce (raw : String) : String :=
  let l := raw.data
  let l1 := if l.contains '@' then (l.dropWhile (· != '@')).tail else l
  let l2 := match l1 with
    | '[' :: r => r
    | _ => l1
  let l3 := if l2.getLast? = some ']' then l2.dropLast else l2
  ⟨(l3.takeWhile (· != ':')).map pyToLower⟩

/-- The normalizer as the amended claim C7 words it: after the userinfo
cut, remove every leading and trailing bracket character, keep the part
left of the first colon, lowercase. -/
def specNormalizeAmended (raw : String) : String :=
  let l := raw.data
  let l1 := if l.contains '@' then (l.dropWhile (· != '@')).tail else l
  let l2 := dropTrailing isBracketChar (l1.dropWhile isBracketChar)
  ⟨(l2.takeWhile (· != ':')).map pyToLower⟩

/-! Helper lemmas. -/

theorem string_eta (s : String) : String.mk s.data = s := rfl

theorem pyToLower_toNat (c : Char) :
    (pyToLower c).toNat = if 65 ≤ c.toNat ∧ c.toNat ≤ 90 then c.toNat + 32 else c.toNat := by
  unfold pyToLower
  split
  · rename_i h
    have hv : (c.toNat + 32).isValidChar := Or.inl (by omega)
    unfold Char.ofNat
    rw [dif_pos hv]
    rfl
  · rfl

theorem pyIsUpper_pyToLower (c : Char) : pyIsUpper (pyToLower c) = false := by
  have h := pyToLower_toNat c
  simp only [pyIsUpper, decide_eq_false_iff_not]
  rw [h]
  split <;> omega

theorem pyToLower_fix (c : Char) (h : ¬(65 ≤ c.toNat ∧ c.toNat ≤ 90)) : pyToLower c = c := by
  unfold pyToLower
  rw [if_neg h]

theorem pyToLower_pyToLower (c : Char) : pyToLower (pyToLower c) = pyToLower c := by
  apply pyToLower_fix
  have h := pyIsUpper_pyToLower c
  simp only [pyIsUpper, decide_eq_false_iff_not] at h
  exact h

theorem pyToLower_eq_low {c d : Char} (hd : d.toNat < 97) (h : pyToLower c = d) : c = d := by
  by_cases hc : 65 ≤ c.toNat ∧ c.toNat ≤ 90
  · exfalso
    have ht := pyToLower_toNat c
    rw [if_pos hc, h] at ht
    omega
  · rw [pyToLower_fix c hc] at h
    exact h

theorem takeWhile_all {p : Char → Bool} :
    ∀ {l : List Char}, (∀ a ∈ l, p a = true) → l.takeWhile p = l := by
  intro l h
  induction l with
  | nil => rfl
  | cons c cs ih =>
    rw [List.takeWhile_cons, h c (List.mem_cons_self c cs)]
    simp only [ite_true]
    rw [ih fun a ha => h a (List.mem_cons_of_mem c ha)]

theorem map_self_of_fix {f : Char → Char} :
    ∀ {l : List Char}, (∀ a ∈ l, f a = a) → l.map f = l := by
  intro l h
  induction l with
  | nil => rfl
  | cons c cs ih =>
    rw [List.map_cons, h c (List.mem_cons_self c cs),
      ih fun a ha => h a (List.mem_cons_of_mem c ha)]

theorem mem_takeWhile_pred {p : Char → Bool} {a : Char} :
    ∀ {l : List Char}, a ∈ l.takeWhile p → p a = true := by
  intro l
  induction l with
  | nil => intro h; simp [List.takeWhile] at h
  | cons c cs ih =>
    intro h
    rw [List.takeWhile_cons] at h
    cases hc : p c with
    | true =>
      rw [hc] at h
      simp only [ite_true, List.mem_cons] at h
      rcases h with rfl | h
      · exact hc
      · exact ih h
    | false =>
      rw [hc] at h
      simp at h

theorem head_takeWhile {p : Char → Bool} {l : List Char} {a : Char}
    (h : (l.takeWhile p).head? = some a) : l.head? = some a := by
  cases l with
  | nil => simp [List.takeWhile] at h
  | cons c cs =>
    rw [List.takeWhile_cons] at h
    cases hc : p c with
    | true =>
      rw [hc] at h
      simp only [ite_true, List.head?_cons, Option.some_inj] at h
      simp [h]
    | false =>
      rw [hc] at h
      simp at h

theorem head_dropWhile_false {p : Char → Bool} {a : Char} :
    ∀ {l : List Char}, (l.dropWhile p).head? = some a → p a = false := by
  intro l
  induction l with
  | nil => intro h; simp [List.dropWhile] at h
  | cons c cs ih =>
    intro h
    rw [List.dropWhile_cons] at h
    cases hc : p c with
    | true =>
      rw [hc] at h
      simp only [ite_true] at h
      exact ih h
    | false =>
      rw [hc] at h
      simp at h
      exact h ▸ hc

theorem head_dropTrailing {p : Char → Bool} {l : List Char} {a : Char}
    (h : (dropTrailing p l).head? = some a) : l.head? = some a := by
  cases l with
  | nil => simp [dropTrailing] at h
  | cons c cs =>
    simp only [dropTrailing] at h
    cases hd : dropTrailing p cs with
    | nil =>
      rw [hd] at h
      cases hc : p c with
      | true => rw [hc] at h; simp at h
      | false =>
        rw [hc] at h
        simp at h
        simp [h]
    | cons r rs =>
      rw [hd] at h
      simp only [List.head?_cons, Option.some_inj] at h
      simp [h]

theorem colon_not_mem_normalize (raw : String) : ':' ∉ (normalize_host raw).data := by
  intro hmem
  simp only [normalize_host] at hmem
  rcases List.mem_map.1 hmem with ⟨c, hc, hEq⟩
  have h1 := @mem_takeWhile_pred (fun x => x != ':') c _ hc
  have h2 : c = ':' := pyToLower_eq_low (by decide) hEq
  simp [h2] at h1

theorem head_pipeline_not_lbracket (l1 : List Char)
    (h : (((dropTrailing isBracketChar (l1.dropWhile isBracketChar)).takeWhile
      (· != ':')).map pyToLower).head? = some '[') : False := by
  rw [List.head?_map] at h
  rcases Option.map_eq_some'.1 h with ⟨c, hh, hEq⟩
  have hc : c = '[' := pyToLower_eq_low (by decide) hEq
  subst hc
  have h2 := head_dropTrailing (head_takeWhile hh)
  have h3 := head_dropWhile_false h2
  simp [isBracketChar] at h3

theorem normalize_head_ne_lbracket (raw : String) :
    (normalize_host raw).data.head? ≠ some '[' := by
  simp only [normalize_host]
  intro h
  exact head_pipeline_not_lbracket _ h

theorem no_upper_normalize (raw : String) :
    ∀ c ∈ (normalize_host raw).data, pyIsUpper c = false := by
  intro c hc
  simp only [normalize_host] at hc
  rcases List.mem_map.1 hc with ⟨c', _, rfl⟩
  exact pyIsUpper_pyToLower c'

theorem mem_directUrlSet {t s : String} (h : s ∈ directUrlSet t) :
    ∃ raw, s = normalize_host raw := by
  simp only [directUrlSet] at h
  split at h
  · split at h
    · split at h
      · exact absurd h (Finset.not_mem_empty s)
      · exact ⟨_, Finset.mem_singleton.1 h⟩
    · exact absurd h (Finset.not_mem_empty s)
  · exact absurd h (Finset.not_mem_empty s)

theorem mem_urlFlagValueSet {v s : String} (h : s ∈ urlFlagValueSet v) :
    ∃ raw, s = normalize_host raw := by
  simp only [urlFlagValueSet] at h
  split at h
  · split at h
    · exact ⟨_, Finset.mem_singleton.1 h⟩
    · exact absurd h (Finset.not_mem_empty s)
  · exact absurd h (Finset.not_mem_empty s)

theorem mem_genericScanSet {t s : String} (h : s ∈ genericScanSet t) :
    ∃ raw, s = normalize_host raw := by
  unfold genericScanSet at h
  rcases List.mem_map.1 (List.mem_toFinset.1 h) with ⟨l, _, rfl⟩
  exact ⟨⟨l⟩, rfl⟩

theorem mem_headerValueSet {v s : String} (h : s ∈ headerValueSet v) :
    ∃ raw, s = normalize_host raw := by
  unfold headerValueSet at h
  split at h
  · exact ⟨_, Finset.mem_singleton.1 h⟩
  · exact mem_genericScanSet h

theorem mem_resolveConnectSet {v s : String} (h : s ∈ resolveConnectSet v) :
    ∃ raw, s = normalize_host raw := by
  unfold resolveConnectSet at h
  rcases List.mem_filterMap.1 (List.mem_toFinset.1 h) with ⟨part, _, hsome⟩
  dsimp only at hsome
  split at hsome
  · exact absurd hsome (by simp)
  · exact ⟨_, (Option.some_inj.1 hsome).symm⟩

theorem mem_flagValueSet {k : FlagKind} {v s : String} (h : s ∈ flagValueSet k v) :
    ∃ raw, s = normalize_host raw := by
  cases k with
  | url => exact mem_urlFlagValueSet h
  | header => exact mem_headerValueSet h
  | hostpairs => exact mem_resolveConnectSet h

theorem mem_extractGo_range :
    ∀ (n : Nat) (ts : List String), ts.length ≤ n →
      ∀ s ∈ extractGo ts, ∃ raw, s = normalize_host raw := by
  intro n
  induction n with
  | zero =>
    intro ts hl s hs
    have : ts = [] := List.length_eq_zero.1 (Nat.le_zero.1 hl)
    subst this
    simp [extractGo] at hs
  | succ n ih =>
    intro ts hl s hs
    rcases ts with _ | ⟨t, _ | ⟨v, rest⟩⟩
    · simp [extractGo] at hs
    · simp only [extractGo] at hs
      rcases Finset.mem_union.1 hs with h | h
      · exact mem_directUrlSet h
      · exact mem_genericScanSet h
    · simp only [extractGo] at hs
      cases hk : flagKind t with
      | none =>
        rw [hk] at hs
        simp only at hs
        rcases Finset.mem_union.1 hs with h | h
        rcases Finset.mem_union.1 h with h | h
        · exact mem_directUrlSet h
        · exact mem_genericScanSet h
        · exact ih (v :: rest) (by simp at hl ⊢; omega) s h
      | some k =>
        rw [hk] at hs
        simp only at hs
        rcases Finset.mem_union.1 hs with h | h
        rcases Finset.mem_union.1 h with h | h
        rcases Finset.mem_union.1 h with h | h
        · exact mem_directUrlSet h
        · exact mem_flagValueSet h
        · exact mem_genericScanSet h
        · exact ih rest (by simp at hl ⊢; omega) s h

theorem mem_filter_by_tlds {decode : String → Option String} {domains tlds : Finset String}
    {d : String} :
    d ∈ filter_by_tlds decode domains tlds ↔
      d ∈ domains ∧ keepDomain decode tlds d = true := by
  unfold filter_by_tlds
  exact Finset.mem_filter

theorem keepDomain_iff (decode : String → Option String) (tlds : Finset String) (d : String) :
    keepDomain decode tlds d = true ↔
      d ≠ "" ∧ (pyLowerStr (lastLabel d) ∈ tlds ∨
        (strStarts "xn--" (pyLowerStr (lastLabel d)) = true ∧
          ∃ u, decode d = some u ∧ pyLowerStr (lastLabel u) ∈ tlds)) := by
  unfold keepDomain
  split_ifs with h1 h2 h3
  · simp [h1]
  · simp [h1, h2]
  · cases hd : decode d with
    | some u => simp [h1, h2, h3, hd]
    | none => simp [h1, h2, h3, hd]
  · simp [h1, h2, h3]

theorem lastLabel_eq_self_of_no_dot {d : String} (h : '.' ∉ d.data) : lastLabel d = d := by
  have hall : ∀ a ∈ d.data.reverse, (a != '.') = true := by
    intro a ha
    rw [List.mem_reverse] at ha
    simp only [bne_iff_ne, ne_eq]
    intro hEq
    exact h (hEq ▸ ha)
  simp only [lastLabel, takeWhile_all hall, List.reverse_reverse]

theorem splitOnChar_ne_nil (sep : Char) (l : List Char) : splitOnChar sep l ≠ [] := by
  cases l with
  | nil => simp [splitOnChar]
  | cons c cs =>
    simp only [splitOnChar]
    split_ifs
    · simp
    · cases h : splitOnChar sep cs <;> simp

theorem splitOnChar_singleton {sep : Char} :
    ∀ {l : List Char}, (splitOnChar sep l).length = 1 → splitOnChar sep l = [l] := by
  intro l
  induction l with
  | nil => intro _; rfl
  | cons c cs ih =>
    intro h
    simp only [splitOnChar] at h ⊢
    split_ifs at h ⊢ with hc
    · exfalso
      simp only [List.length_cons] at h
      exact splitOnChar_ne_nil sep cs (List.length_eq_zero.1 (by omega))
    · cases hs : splitOnChar sep cs with
      | nil => exact absurd hs (splitOnChar_ne_nil sep cs)
      | cons p ps =>
        rw [hs] at h
        dsimp only at h
        have hps : ps = [] := by
          cases ps with
          | nil => rfl
          | cons q qs => simp at h
        subst hps
        have h2 := ih (by rw [hs]; rfl)
        rw [hs] at h2
        simp only [List.cons.injEq, and_true] at h2
        rw [h2]

theorem wildLabel_eq_specLabel (d : String) : wildLabel d = specLabel d := by
  simp only [wildLabel, specLabel]
  split_ifs with h
  · rfl
  · have hne := splitOnChar_ne_nil '.' d.data
    have hpos : 0 < (splitOnChar '.' d.data).length := List.length_pos.2 hne
    have hlen : (splitOnChar '.' d.data).length = 1 := by omega
    rw [splitOnChar_singleton hlen]
    rfl

theorem sorted_sortFinset (F : Finset String) : List.Sorted strLeP (sortFinset F) := by
  rcases F with ⟨val, nd⟩
  induction val using Quot.inductionOn with
  | _ l => exact List.sorted_insertionSort strLeP l

theorem extractGo_flag_cons (t v : String) (rest : List String) (k : FlagKind)
    (hk : flagKind t = some k) (hd : directUrlSet t = ∅) (hg : genericScanSet t = ∅) :
    extractGo (t :: v :: rest) = flagValueSet k v ∪ extractGo rest := by
  simp only [extractGo, hk, hd, hg, Finset.empty_union, Finset.union_empty]

theorem normalize_fixpoint (y : String)
    (h1 : y.data.contains '@' = false)
    (h2 : dropTrailing isBracketChar (y.data.dropWhile isBracketChar) = y.data)
    (h3 : ∀ a ∈ y.data, (a != ':') = true)
    (h4 : ∀ a ∈ y.data, pyToLower a = a) :
    normalize_host y = y := by
  simp only [normalize_host, h1, Bool.false_eq_true, if_false]
  rw [h2, takeWhile_all h3, map_self_of_fix h4]

/-! The claims. -/

/-- C1 (amended): for every decoder, domain set and TLD set, a domain d
is in the filter output iff d is in the domain set, d is NONEMPTY, and
either its last dot label, lowercased, is in tlds, or that lowercased
last label starts with xn--, the IDNA decode of the whole domain
succeeds, and the lowercased last label of the decoded form is in tlds.
The original string, never the decoded one, is what appears in the
output, and only the last label is ever tested.  The frozen claim omits
the nonemptiness condition, which the counterexample shows necessary. -/
theorem c1_tld_filter_membership (decode : String → Option String)
    (domains tlds : Finset String) (d : String) :
    d ∈ filter_by_tlds decode domains tlds ↔
      d ∈ domains ∧ d ≠ "" ∧
        (pyLowerStr (lastLabel d) ∈ tlds ∨
          (strStarts "xn--" (pyLowerStr (lastLabel d)) = true ∧
            ∃ u, decode d = some u ∧ pyLowerStr (lastLabel u) ∈ tlds)) := by
  rw [mem_filter_by_tlds, keepDomain_iff]

/-- C1 counterexample: with domain set and TLD set both containing only
the empty string, the empty string is in the domain set and its last
label, lowercased, is in the TLD set, so the claim as frozen predicts it
is kept; filter_by_tlds nevertheless excludes it, because the source
skips falsy domains. -/
theorem c1_counterexample :
    "" ∉ filter_by_tlds (fun _ => none) {""} {""} ∧
      ("" : String) ∈ ({""} : Finset String) ∧
      pyLowerStr (lastLabel "") ∈ ({""} : Finset String) := by decide

/-- C2: every string in the extractor output, and hence in the filter
output over it, is the result of applying the host normalizer, and
consequently contains no colon, is not surrounded by square brackets,
and contains no uppercase character. -/
theorem c2_normalized_invariant (tokens : List String) (decode : String → Option String)
    (tlds : Finset String) (s : String)
    (h : s ∈ token_extract_domains tokens ∨
      s ∈ filter_by_tlds decode (token_extract_domains tokens) tlds) :
    (∃ raw, s = normalize_host raw) ∧ ':' ∉ s.data ∧
      ¬(s.data.head? = some '[' ∧ s.data.getLast? = some ']') ∧
      ∀ c ∈ s.data, pyIsUpper c = false := by
  have hmem : s ∈ token_extract_domains tokens := by
    rcases h with h | h
    · exact h
    · exact (mem_filter_by_tlds.1 h).1
  obtain ⟨raw, rfl⟩ := mem_extractGo_range tokens.length tokens le_rfl s hmem
  exact ⟨⟨raw, rfl⟩, colon_not_mem_normalize raw,
    fun hpair => normalize_head_ne_lbracket raw hpair.1, no_upper_normalize raw⟩

/-- C2 witness: the invariant instantiated on a concrete extraction. -/
theorem c2_witness :
    (∃ raw, "example.com" = normalize_host raw) ∧ ':' ∉ "example.com".data ∧
      ¬("example.com".data.head? = some '[' ∧ "example.com".data.getLast? = some ']') ∧
      ∀ c ∈ "example.com".data, pyIsUpper c = false :=
  c2_normalized_invariant ["http://Example.COM/x"] (fun _ => none) ∅ "example.com"
    (Or.inl (by decide))

/-- C3 counterexample: the normalizer is not idempotent; a second at
sign survives the first pass and is cut by the second. -/
theorem c3_counterexample :
    normalize_host (normalize_host "a@b@c") ≠ normalize_host "a@b@c" := by decide

/-- C3 (amended): the normalizer is idempotent on every input whose
normalization contains no at sign and carries no leading or trailing
bracket characters (equivalently, is a fixed point of the bracket
strip); unconditional idempotence fails, see the counterexample. -/
theorem c3_idempotent_cond (x : String)
    (h1 : (normalize_host x).data.contains '@' = false)
    (h2 : dropTrailing isBracketChar ((normalize_host x).data.dropWhile isBracketChar) =
      (normalize_host x).data) :
    normalize_host (normalize_host x) = normalize_host x := by
  apply normalize_fixpoint _ h1 h2
  · intro a ha
    simp only [bne_iff_ne, ne_eq]
    intro hEq
    exact colon_not_mem_normalize x (hEq ▸ ha)
  · intro a ha
    apply pyToLower_fix
    have hu := no_upper_normalize x a ha
    simpa [pyIsUpper] using hu

/-- C3 witness: the conditional idempotence applied to a concrete
host. -/
theorem c3_witness :
    normalize_host (normalize_host "User@Example.com:8080") =
      normalize_host "User@Example.com:8080" :=
  c3_idempotent_cond "User@Example.com:8080" (by decide) (by decide)

/-- C4 counterexample: after a url flag the next token is consumed even
when it is not a url, so a bare domain following the flag is skipped by
the scan entirely, while the generic rule alone would have extracted
it. -/
theorem c4_counterexample :
    token_extract_domains ["-I", "example.com"] = ∅ ∧
      token_extract_domains ["example.com"] = {"example.com"} := by decide

/-- C4 (amended): when a token is one of the four url flags and a next
token exists, the scan ALWAYS advances past that next token; the value
contributes its normalized netloc exactly in the cases urlFlagValueSet
describes (it starts with http:// or https:// and url parsing does not
fail).  The frozen claim said the value token is consumed only in the
url case and is otherwise rescanned generically, which the
counterexample refutes. -/
theorem c4_urlflag_always_consumes (t v : String) (rest : List String)
    (h : t = "--url" ∨ t = "--url*" ∨ t = "-I" ∨ t = "--head") :
    token_extract_domains (t :: v :: rest) =
      urlFlagValueSet v ∪ token_extract_domains rest := by
  have hk : flagKind t = some FlagKind.url := by
    rcases h with rfl | rfl | rfl | rfl <;> rfl
  have hd : directUrlSet t = ∅ := by
    rcases h with rfl | rfl | rfl | rfl <;> decide
  have hg : genericScanSet t = ∅ := by
    rcases h with rfl | rfl | rfl | rfl <;> decide
  exact extractGo_flag_cons t v rest FlagKind.url hk hd hg

/-- C4 witness: the amended equation at a concrete flag and value. -/
theorem c4_witness :
    token_extract_domains ["--url", "https://a.b/c"] =
      urlFlagValueSet "https://a.b/c" ∪ token_extract_domains [] :=
  c4_urlflag_always_consumes "--url" "https://a.b/c" [] (Or.inl rfl)

/-- C5: the header and resolve and connect-to flags consume their value
token, which therefore contributes only through the flag rule and is
never rescanned by the generic rule; in the concrete resolve scenario
the filtered output contains example.org and the ip literal target is
not extracted at all. -/
theorem c5_value_flags_consume :
    (∀ (t v : String) (rest : List String),
        t = "-H" ∨ t = "--header" ∨ t = "--resolve" ∨ t = "--connect-to" →
        token_extract_domains (t :: v :: rest) =
          (if t = "-H" ∨ t = "--header" then headerValueSet v else resolveConnectSet v) ∪
            token_extract_domains rest) ∧
      "example.org" ∈ filter_by_tlds (fun _ => none)
        (token_extract_domains ["--resolve", "example.org:443:93.184.216.34"]) {"org"} ∧
      "93.184.216.34" ∉ token_extract_domains ["--resolve", "example.org:443:93.184.216.34"] := by
  refine ⟨?_, by decide, by decide⟩
  intro t v rest h
  rcases h with rfl | rfl | rfl | rfl
  · rw [if_pos (Or.inl rfl)]
    exact extractGo_flag_cons "-H" v rest FlagKind.header rfl (by decide) (by decide)
  · rw [if_pos (Or.inr rfl)]
    exact extractGo_flag_cons "--header" v rest FlagKind.header rfl (by decide) (by decide)
  · rw [if_neg (by decide)]
    exact extractGo_flag_cons "--resolve" v rest FlagKind.hostpairs rfl (by decide) (by decide)
  · rw [if_neg (by decide)]
    exact extractGo_flag_cons "--connect-to" v rest FlagKind.hostpairs rfl (by decide)
      (by decide)

/-- C5 witness: the consumption equation at a concrete header flag. -/
theorem c5_witness :
    token_extract_domains ["-H", "Host: a.com"] =
      (if ("-H" : String) = "-H" ∨ ("-H" : String) = "--header" then headerValueSet "Host: a.com"
        else resolveConnectSet "Host: a.com") ∪ token_extract_domains [] :=
  c5_value_flags_consume.1 "-H" "Host: a.com" [] (Or.inl rfl)

/-- C6 counterexample: a whitespace-only explicit command argument is
empty after trimming, yet the run does not terminate with status 1: the
source only strips commands read from stdin, and the whitespace-only
argument is Python-truthy, so the run proceeds and prints an empty
domain list with status 0. -/
theorem c6_counterexample :
    pyStripS "  " = "" ∧
      runCore (fun _ => []) (fun _ => none) (some "  ") "  " {"com"} = Except.ok [] := by
  constructor
  · rfl
  · rfl

/-- C6 (amended): the run terminates with status 1, producing no domain
output, whenever the effective command string is empty, that is when no
explicit nonempty command argument is given and stdin is empty after
trimming (an explicit empty argument falls back to stdin); an explicit
whitespace-only argument is NOT trimmed and passes the check, see the
counterexample. -/
theorem c6_empty_command_exits (tokenize : String → List String)
    (decode : String → Option String) (cmdArg : Option String) (stdin : String)
    (tlds : Finset String) (h : cmdArg = none ∨ cmdArg = some "")
    (hs : pyStripS stdin = "") :
    runCore tokenize decode cmdArg stdin tlds = Except.error 1 := by
  rcases h with rfl | rfl <;> simp [runCore, readCommand, hs]

/-- C6 witness: the exit at a concrete empty stdin invocation. -/
theorem c6_witness :
    runCore (fun _ => []) (fun _ => none) none "   " {"com"} = Except.error 1 :=
  c6_empty_command_exits (fun _ => []) (fun _ => none) none "   " {"com"} (Or.inl rfl) rfl

/-- C7 counterexample: the frozen claim says one leading open bracket
and one trailing close bracket are stripped; str.strip removes every
leading and trailing bracket character, so the two disagree already on
a doubly bracketed input. -/
theorem c7_counterexample :
    claimNormalizeOnce "[[a]]" ≠ normalize_host "[[a]]" ∧
      normalize_host "[[a]]" = "a" ∧ claimNormalizeOnce "[[a]]" = "[a]" := by decide

/-- C7 (amended): normalize is computed by discarding everything up to
and including the first at sign when one occurs, then removing every
leading and trailing bracket character, then keeping the part left of
the first colon, then lowercasing; it is total and may return the empty
string.  Stated as equality with the amended spec-side pipeline. -/
theorem c7_normalize_decomposition (raw : String) :
    normalize_host raw = specNormalizeAmended raw := rfl

/-- C8 counterexample: a dotless domain is NOT always excluded; it is
kept whenever the whole lowercased string is itself a member of the TLD
set. -/
theorem c8_counterexample :
    "com" ∈ filter_by_tlds (fun _ => none) {"com"} {"com"} ∧ '.' ∉ "com".data := by decide

/-- C8 (amended): a candidate domain with no dot is excluded by the
filter for every domain set and every TLD set that does not contain the
lowercased domain itself, provided the lowercased domain does not start
with xn-- (in which case the punycode fallback could still keep it). -/
theorem c8_dotless_excluded (decode : String → Option String) (domains tlds : Finset String)
    (d : String) (hdot : '.' ∉ d.data) (h1 : pyLowerStr d ∉ tlds)
    (h2 : strStarts "xn--" (pyLowerStr d) = false) :
    d ∉ filter_by_tlds decode domains tlds := by
  intro hmem
  have hl : lastLabel d = d := lastLabel_eq_self_of_no_dot hdot
  rcases mem_filter_by_tlds.1 hmem with ⟨_, hk⟩
  rw [keepDomain_iff] at hk
  rcases hk with ⟨_, hor⟩
  rw [hl] at hor
  rcases hor with h | ⟨hx, _⟩
  · exact h1 h
  · rw [h2] at hx
    exact Bool.false_ne_true hx

/-- C8 witness: the exclusion at a concrete dotless candidate. -/
theorem c8_witness :
    "localhost" ∉ filter_by_tlds (fun _ => none) {"localhost"} {"com"} :=
  c8_dotless_excluded (fun _ => none) {"localhost"} {"com"} "localhost" (by decide) (by decide)
    (by decide)

/-- C9: suggest_wildcards equals the spec-side description: take the
second-to-last label of each domain with at least two labels and the
whole string of a single-label domain, dedupe into a set, emit each
label followed by a dot and a star, sorted ascending lexicographically;
on the two-subdomain scenario the result is the single entry for
example. -/
theorem c9_suggest_wildcards :
    (∀ S : Finset String, suggest_wildcards S =
        sortFinset ((S.image specLabel).image (fun lbl => lbl ++ ".*"))) ∧
      (∀ S : Finset String, List.Sorted strLeP (suggest_wildcards S)) ∧
      suggest_wildcards {"login.example.com", "shop.example.com"} = ["example.*"] := by
  refine ⟨?_, ?_, by decide⟩
  · intro S
    unfold suggest_wildcards
    rw [funext wildLabel_eq_specLabel]
  · intro S
    exact sorted_sortFinset _

/-- C10: the Host pattern is searched case-insensitively anywhere in the
header token, not anchored at its start: whenever the search finds a
capture, the header flag adds exactly the normalized capture, and in
particular an X-Forwarded-Host header matches through its embedded Host
substring. -/
theorem c10_host_regex_unanchored :
    (∀ (t hdr : String) (rest : List String) (cap : List Char),
        t = "-H" ∨ t = "--header" → hostSearch hdr.data = some cap →
        token_extract_domains (t :: hdr :: rest) =
          {normalize_host ⟨cap⟩} ∪ token_extract_domains rest) ∧
      token_extract_domains ["-H", "X-Forwarded-Host: evil.example"] = {"evil.example"} ∧
      hostSearch "X-Forwarded-Host: evil.example".data = some "evil.example".data := by
  refine ⟨?_, by decide, by decide⟩
  intro t hdr rest cap h hsearch
  have hhv : headerValueSet hdr = {normalize_host ⟨cap⟩} := by
    unfold headerValueSet
    rw [hsearch]
  rcases h with rfl | rfl
  · have he := extractGo_flag_cons "-H" hdr rest FlagKind.header rfl (by decide) (by decide)
    rw [show flagValueSet FlagKind.header hdr = headerValueSet hdr from rfl, hhv] at he
    exact he
  · have he := extractGo_flag_cons "--header" hdr rest FlagKind.header rfl (by decide)
      (by decide)
    rw [show flagValueSet FlagKind.header hdr = headerValueSet hdr from rfl, hhv] at he
    exact he

/-- C10 witness: the header capture equation at a concrete header. -/
theorem c10_witness :
    token_extract_domains ["--header", "Host: a.com"] =
      {normalize_host ⟨"a.com".data⟩} ∪ token_extract_domains [] :=
  c10_host_regex_unanchored.1 "--header" "Host: a.com" [] "a.com".data (Or.inr rfl) (by decide)
